import Mathlib

/-!
Shallow embedding of the SmartClassNotes front-end logic (NotesEditor and
AppMain components) and proofs about it.

Conventions of the embedding:
* Strings are modelled as `List Char`; a JS string value `s` corresponds to
  `(s).data`.
* The JS regular expressions of the source are embedded as explicit
  backtracking matchers over `List Char`, mirroring the greedy/lazy
  semantics of the exact patterns used by the code.  The character class
  `\s` is modelled by `isWsChar` (the ASCII whitespace characters); `.`
  matches every character except the newline, as in JS without the `s`
  flag.  Carriage-return line terminators receive no special treatment
  beyond membership in `\s`, which is faithful for all inputs considered
  here.
* Scanning loops that are not structurally recursive take an explicit fuel
  argument; the top-level wrappers pass `length + 1` fuel, which is always
  sufficient because every iteration consumes at least one character.  All
  lemmas about these loops hold for every fuel value.
* Optional/falsy JS values: the store `title` is a `List Char` where `[]`
  plays the role of the absent/empty (falsy) title; the uploaded file is an
  `Option (List Char)` carrying its name; event `detail` payloads are
  `Option (List Char)`.
-/

/-- JS `\s` restricted to the ASCII range: space, tab, newline, carriage
return, vertical tab, form feed. -/
def isWsChar (c : Char) : Bool :=
  c = ' ' || c = '\t' || c = '\n' || c = '\r' || c = '\x0b' || c = '\x0c'

/-- JS `String.prototype.trim`: drop whitespace from both ends. -/
def trimWs (cs : List Char) : List Char :=
  ((cs.dropWhile isWsChar).reverse.dropWhile isWsChar).reverse

/-- JS `s.replace(/\*\*(sequence)/g, '')` specialised to the pattern `\*\*`:
remove every non-overlapping occurrence of two consecutive asterisks,
scanning left to right. -/
def removeStars : List Char → List Char
  | '*' :: '*' :: rest => removeStars rest
  | c :: rest => c :: removeStars rest
  | [] => []

/-- JS `String.prototype.includes`: does `needle` occur as a contiguous
subsequence of the second argument? -/
def containsSub (needle : List Char) : List Char → Bool
  | [] => needle.isEmpty
  | c :: cs => needle.isPrefixOf (c :: cs) || containsSub needle cs

/-- Matcher for `([^\n]+)\n*`: at least one non-newline character (greedy),
then any number of newlines (greedy).  Returns
`(matched text, capture, rest)`. -/
def capPart : List Char → Option (List Char × List Char × List Char)
  | [] => none
  | c :: cs =>
    if c = '\n' then none
    else
      some ((c :: cs.takeWhile (· ≠ '\n')) ++ (cs.dropWhile (· ≠ '\n')).takeWhile (· = '\n'),
            c :: cs.takeWhile (· ≠ '\n'),
            (cs.dropWhile (· ≠ '\n')).dropWhile (· = '\n'))

/-- Matcher for `\n+([^\n]+)\n*`: one or more newlines (greedy), then
`capPart`.  Returns `(matched text, capture, rest)`. -/
def nlTail : List Char → Option (List Char × List Char × List Char)
  | [] => none
  | c :: cs =>
    if c = '\n' then
      match capPart (cs.dropWhile (· = '\n')) with
      | some (m, cap, r) => some (c :: cs.takeWhile (· = '\n') ++ m, cap, r)
      | none => none
    else none

/-- Matcher for `\s*\n+([^\n]+)\n*` with the greedy backtracking of the JS
engine: `\s*` first consumes as much whitespace as possible and backs off
one character at a time until the tail `\n+([^\n]+)\n*` matches. -/
def tituloTail : List Char → Option (List Char × List Char × List Char)
  | [] => none
  | c :: cs =>
    if isWsChar c then
      match tituloTail cs with
      | some (m, cap, r) => some (c :: m, cap, r)
      | none => nlTail (c :: cs)
    else nlTail (c :: cs)

/-- Match of `## T[íi]tulo\s*\n+([^\n]+)\n*` at the head of the input.
Returns `(matched text, capture, rest)`.  The variant without the trailing
`\n*` (used by `derivedTitle`) has the same capture, so a single matcher
serves both regexes of the source. -/
def tituloAt : List Char → Option (List Char × List Char × List Char)
  | '#' :: '#' :: ' ' :: 'T' :: c :: 't' :: 'u' :: 'l' :: 'o' :: rest =>
    if c = 'í' ∨ c = 'i' then
      match tituloTail rest with
      | some (m, cap, r) =>
        some ('#' :: '#' :: ' ' :: 'T' :: c :: 't' :: 'u' :: 'l' :: 'o' :: m, cap, r)
      | none => none
    else none
  | _ => none

/-- Multiline scan for the first line start where `tituloAt` matches,
implementing the `m` flag of `/^## T[íi]tulo.../m`.  Returns
`(text before the match, matched text, capture, rest)`.  Fuel-indexed: the
wrapper `findTB` provides enough fuel for the whole input. -/
def findTBF : Nat → List Char → Option (List Char × List Char × List Char × List Char)
  | 0, _ => none
  | fuel + 1, cs =>
    match tituloAt cs with
    | some (m, cap, r) => some ([], m, cap, r)
    | none =>
      match cs.dropWhile (· ≠ '\n') with
      | [] => none
      | x :: tail =>
        match findTBF fuel tail with
        | some (p, m, cap, r) => some (cs.takeWhile (· ≠ '\n') ++ x :: p, m, cap, r)
        | none => none

/-- First multiline match of the `## Título` pattern in the input. -/
def findTB (cs : List Char) : Option (List Char × List Char × List Char × List Char) :=
  findTBF (cs.length + 1) cs

/-- Matcher for `\s*([^\n]+)\n*` with greedy backtracking on `\s*`
(the continuation of `\s+` after its first mandatory character). -/
def wsMore : List Char → Option (List Char × List Char × List Char)
  | [] => none
  | c :: cs =>
    if isWsChar c then
      match wsMore cs with
      | some (m, cap, r) => some (c :: m, cap, r)
      | none => capPart (c :: cs)
    else capPart (c :: cs)

/-- Matcher for `\s+([^\n]+)\n*`: one mandatory whitespace character then
`wsMore`. -/
def wsCapTail : List Char → Option (List Char × List Char × List Char)
  | [] => none
  | c :: cs =>
    if isWsChar c then
      match wsMore cs with
      | some (m, cap, r) => some (c :: m, cap, r)
      | none => none
    else none

/-- Match of `^\s*#{1,2}\s+([^\n]+)\n*` anchored at the start of the input
(no `m` flag in the source, so only position 0 is tried).  As with
`tituloAt`, the variant without `\n*` (used for the capture) shares this
matcher.  Returns `(matched text, capture, rest)`. -/
def firstHeading (cs : List Char) : Option (List Char × List Char × List Char) :=
  match cs.dropWhile isWsChar with
  | '#' :: '#' :: r2 =>
    match wsCapTail r2 with
    | some (m, cap, r) => some (cs.takeWhile isWsChar ++ '#' :: '#' :: m, cap, r)
    | none => none
  | '#' :: r1 =>
    match wsCapTail r1 with
    | some (m, cap, r) => some (cs.takeWhile isWsChar ++ '#' :: m, cap, r)
    | none => none
  | _ => none

/-- JS `name.replace(/\.[^.]+$/, '')`: drop a final extension (a dot
followed by one or more non-dot characters reaching the end). -/
def stripExt (n : List Char) : List Char :=
  match n.reverse.dropWhile (· ≠ '.') with
  | '.' :: restR => if n.reverse.takeWhile (· ≠ '.') = [] then n else restR.reverse
  | _ => n

/-- The reserved section names of the first-heading fallback. -/
def reservedWords : List (List Char) :=
  [("Resumen").data, ("Conceptos").data, ("Definiciones").data,
   ("Contenido").data, ("Introducción").data]

/-- The check `reserved.some(r => candidate.includes(r))` from the source. -/
def reservedAny (candidate : List Char) : Bool :=
  reservedWords.any (fun r => containsSub r candidate)

/-- The fallback `file?.name?.replace(/\.[^.]+$/, '') || 'Notes'` from the source:
the file name with its final extension removed, defaulting to the literal
`Notes` when absent or empty. -/
def fileFallback : Option (List Char) → List Char
  | none => ("Notes").data
  | some n => if stripExt n = [] then ("Notes").data else stripExt n

/-- The `derivedTitle` computation of NotesEditor: store title if truthy;
else the `## Título` section's following line (trimmed, `**` removed); else
the start-anchored heading capture when it avoids the reserved words
(trimmed, `**` removed); else the file-name fallback. -/
def derivedTitle (title notes : List Char) (file : Option (List Char)) : List Char :=
  if title ≠ [] then title
  else
    match findTB notes with
    | some (_, _, cap, _) => removeStars (trimWs cap)
    | none =>
      match firstHeading notes with
      | some (_, cap, _) =>
        if reservedAny (trimWs cap) then fileFallback file
        else removeStars (trimWs cap)
      | none => fileFallback file

/-- Title derivation as described literally by the claim under test: its
branch (c) demands that the first line of the notes (the text before the
first newline) be a level-1 or level-2 heading.  This definition follows
the claim's words and is compared against `derivedTitle`, which embeds the
source. -/
def claimTitle (title notes : List Char) (file : Option (List Char)) : List Char :=
  if title ≠ [] then title
  else
    match findTB notes with
    | some (_, _, cap, _) => removeStars (trimWs cap)
    | none =>
      match notes.takeWhile (· ≠ '\n') with
      | '#' :: '#' :: ' ' :: restL =>
        if reservedAny restL then
          match file with
          | some n => stripExt n
          | none => ("Notes").data
        else removeStars restL
      | '#' :: ' ' :: restL =>
        if reservedAny restL then
          match file with
          | some n => stripExt n
          | none => ("Notes").data
        else removeStars restL
      | _ =>
        match file with
        | some n => stripExt n
        | none => ("Notes").data

/-- The call `content.replace(/^## T[íi]tulo\s*\n+[^\n]+\n*/m, '')` from the
source: splice out the first multiline match, if any. -/
def replaceTitulo (cs : List Char) : List Char :=
  match findTB cs with
  | some (p, _, _, r) => p ++ r
  | none => cs

/-- The call `content.replace(/^\s*#{1,2}\s+[^\n]+\n*/, '')` from the source:
remove a start-anchored heading match, if any. -/
def replaceFirstHeading (cs : List Char) : List Char :=
  match firstHeading cs with
  | some (_, _, r) => r
  | none => cs

/-- The content-cleaning transform of `handleDownload` (source lines
52-69), parameterised by the derived title `dt`: try the explicit `Título`
removal; if nothing changed, remove the first heading line when its
cleaned capture equals `dt`; finally trim. -/
def stripDownload (dt content : List Char) : List Char :=
  if replaceTitulo content = content then
    match firstHeading content with
    | some (_, cap, _) =>
      if removeStars (trimWs cap) = dt then trimWs (replaceFirstHeading content)
      else trimWs content
    | none => trimWs content
  else trimWs (replaceTitulo content)

/-- The content-cleaning transform of `previewHtml` (source lines 104-113):
identical to `stripDownload` except that the no-change test compares the
trimmed strings. -/
def stripPreview (dt notes : List Char) : List Char :=
  if trimWs (replaceTitulo notes) = trimWs notes then
    match firstHeading notes with
    | some (_, cap, _) =>
      if removeStars (trimWs cap) = dt then trimWs (replaceFirstHeading notes)
      else trimWs (replaceTitulo notes)
    | none => trimWs (replaceTitulo notes)
  else trimWs (replaceTitulo notes)

/-- Shape of the text matched by `\s*\n+(capture)\n*`. -/
def IsTituloTail (m cap : List Char) : Prop :=
  ∃ ws nls nls2, m = ws ++ nls ++ cap ++ nls2 ∧ (∀ x ∈ ws, isWsChar x = true) ∧
    nls ≠ [] ∧ (∀ x ∈ nls, x = '\n') ∧ cap ≠ [] ∧ '\n' ∉ cap ∧ (∀ x ∈ nls2, x = '\n')

/-- Shape of a full `## T[íi]tulo...` block: the heading line followed by
exactly one non-empty title line (and adjacent blank lines/newlines). -/
def IsTituloBlock (m : List Char) : Prop :=
  ∃ c tm cap, m = '#' :: '#' :: ' ' :: 'T' :: c :: 't' :: 'u' :: 'l' :: 'o' :: tm ∧
    (c = 'í' ∨ c = 'i') ∧ IsTituloTail tm cap

/-- Shape of the text matched by `\s+(capture)\n*`. -/
def IsHeadingTail (m cap : List Char) : Prop :=
  ∃ sp nls2, m = sp ++ cap ++ nls2 ∧ (∀ x ∈ sp, isWsChar x = true) ∧
    cap ≠ [] ∧ '\n' ∉ cap ∧ (∀ x ∈ nls2, x = '\n')

/-- Shape of a start-anchored heading match `\s*#{1,2}\s+[^\n]+\n*`: a
single heading line (with its optional surrounding whitespace and trailing
newlines). -/
def IsHeadingBlock (m : List Char) : Prop :=
  ∃ ws hs tm cap, m = ws ++ hs ++ tm ∧ (∀ x ∈ ws, isWsChar x = true) ∧
    (hs = ['#'] ∨ hs = ['#', '#']) ∧ IsHeadingTail tm cap

/-- The four steps of the app flow. -/
inductive Step
  | upload
  | transcribing
  | aiProcessing
  | editor
deriving DecidableEq

/-- The processing states mentioned by AppMain; `idle` stands for every
store value other than the four named ones. -/
inductive ProcState
  | idle
  | compressing
  | uploading
  | transcribing
  | done
deriving DecidableEq

/-- The test `['compressing', 'uploading', 'transcribing'].includes(processingSt)`. -/
def isProcessingState : ProcState → Bool
  | ProcState.compressing => true
  | ProcState.uploading => true
  | ProcState.transcribing => true
  | _ => false

/-- The load-time guard of AppMain (source lines 399-424) as a function
from the observed store state to the corrected step. -/
def loadGuardStep (st : Step) (hasData hasTrans : Bool) (ps : ProcState) : Step :=
  if isProcessingState ps ∧ st = Step.upload then
    if ps = ProcState.done then Step.aiProcessing else Step.transcribing
  else if hasData ∧ st = Step.upload then Step.editor
  else if hasData = false ∧ hasTrans = false ∧ isProcessingState ps = false ∧
      (st = Step.aiProcessing ∨ st = Step.editor ∨ st = Step.transcribing) then
    Step.upload
  else st

/-- The `handlePopState` handler (source lines 426-452): `target` is the
step recorded in the history entry (`none` when the entry carries no
step). -/
def handlePopState (target : Option Step) (hasData : Bool) : Step :=
  match target with
  | some s =>
    if hasData ∧ (s = Step.transcribing ∨ s = Step.aiProcessing) then Step.editor
    else if s = Step.editor ∧ hasData = false then Step.upload
    else s
  | none => Step.upload

/-- The `scn-lang-change` listener (source lines 475-483): update the
locale only for the exact payloads `es` and `en`. -/
def handleLangChange (detail : Option (List Char)) (loc : List Char) : List Char :=
  match detail with
  | some d => if d ≠ [] ∧ (d = ("es").data ∨ d = ("en").data) then d else loc
  | none => loc

/-- The `scn-theme-change` listener (source lines 502-511): update the
theme only for the exact payloads `light` and `dark`. -/
def handleThemeChange (detail : Option (List Char)) (theme : List Char) : List Char :=
  match detail with
  | some d => if d ≠ [] ∧ (d = ("light").data ∨ d = ("dark").data) then d else theme
  | none => theme

/-- The three PDF styles of the style selector. -/
inductive PdfStyle
  | minimalista
  | academico
  | cornell
deriving DecidableEq

/-- The `font` local of `previewHtml` per style (cornell keeps the
defaults). -/
def styleFont : PdfStyle → List Char
  | PdfStyle.academico => ("\"Times New Roman\", Times, serif").data
  | PdfStyle.minimalista => ("Helvetica, Arial, sans-serif").data
  | PdfStyle.cornell => ("ui-sans-serif, system-ui, sans-serif").data

/-- The `titleColor` local of `previewHtml` per style. -/
def styleTitleColor : PdfStyle → List Char
  | PdfStyle.academico => ("#003366").data
  | PdfStyle.minimalista => ("#000000").data
  | PdfStyle.cornell => ("var(--text-primary)").data

/-- The `headersColor` local of `previewHtml` per style. -/
def styleHeadersColor : PdfStyle → List Char
  | PdfStyle.academico => ("#003366").data
  | PdfStyle.minimalista => ("#111").data
  | PdfStyle.cornell => ("var(--text-primary)").data

/-- Opening tag substituted for a `### ` line. -/
def h3Open (st : PdfStyle) : List Char :=
  ("<h3 style=\"font-family:").data ++ styleFont st ++
    (";font-size:1rem;font-weight:600;margin:1.25rem 0 0.5rem;color:").data ++
    styleHeadersColor st ++ (";\">").data

/-- Opening tag substituted for a `## ` line (the bottom border appears
only in the academico style). -/
def h2Open (st : PdfStyle) : List Char :=
  ("<h2 style=\"font-family:").data ++ styleFont st ++
    (";font-size:1.15rem;font-weight:600;margin:1.5rem 0 0.5rem;color:").data ++
    styleTitleColor st ++ (";border-bottom:").data ++
    (if st = PdfStyle.academico then ("1px solid #003366").data else ("none").data) ++
    (";padding-bottom:4px;\">").data

/-- Opening tag substituted for a `# ` line. -/
def h1Open (st : PdfStyle) : List Char :=
  ("<h1 style=\"font-family:").data ++ styleFont st ++
    (";font-size:1.3rem;font-weight:700;margin:1.75rem 0 0.5rem;color:").data ++
    styleTitleColor st ++ (";\">").data

/-- One line under `replace(/^MARKER(.+)$/gm, open + capture + close)`:
rewrite the line exactly when it starts with the marker and carries at
least one further character. -/
def hLine (marker openTag closeTag l : List Char) : List Char :=
  if marker.isPrefixOf l ∧ marker.length < l.length then
    openTag ++ l.drop marker.length ++ closeTag
  else l

/-- Split at newlines; the result is never empty and rejoining with
`joinLines` restores the input. -/
def splitLines : List Char → List (List Char)
  | [] => [[]]
  | c :: cs =>
    if c = '\n' then [] :: splitLines cs
    else
      match splitLines cs with
      | l :: ls => (c :: l) :: ls
      | [] => [[c]]

/-- Inverse of `splitLines`: interleave newlines between the lines. -/
def joinLines : List (List Char) → List Char
  | [] => []
  | l :: ls =>
    match ls with
    | [] => l
    | _ :: _ => l ++ '\n' :: joinLines ls

/-- Apply a per-line transform to every line, as a global multiline
whole-line regex replacement does. -/
def lineMap (f : List Char → List Char) (cs : List Char) : List Char :=
  joinLines ((splitLines cs).map f)

/-- Lazy tail matcher for `(.+?)\*\*`: the shortest non-empty newline-free
gap followed by two asterisks.  Returns `(gap, rest)`. -/
def boldClose : List Char → Option (List Char × List Char)
  | [] => none
  | c :: cs =>
    if c = '\n' then none
    else
      match cs with
      | '*' :: '*' :: rest => some ([c], rest)
      | _ =>
        match boldClose cs with
        | some (g, r) => some (c :: g, r)
        | none => none

/-- Replacement pieces of the bold rule. -/
def strongOpen : List Char := ("<strong style=\"color:var(--text-primary);font-weight:600;\">").data

/-- Closing tag of the bold rule. -/
def strongClose : List Char := ("</strong>").data

/-- Global scan of `replace(/\*\*(.+?)\*\*\/g, ...)`: on a failed match the
engine advances a single character. -/
def boldRunF : Nat → List Char → List Char
  | 0, cs => cs
  | _ + 1, [] => []
  | fuel + 1, c :: cs =>
    match cs with
    | c2 :: cs2 =>
      if c = '*' ∧ c2 = '*' then
        match boldClose cs2 with
        | some (g, r) => strongOpen ++ g ++ strongClose ++ boldRunF fuel r
        | none => c :: boldRunF fuel (c2 :: cs2)
      else c :: boldRunF fuel (c2 :: cs2)
    | [] => [c]

/-- Wrapper with sufficient fuel. -/
def boldRun (cs : List Char) : List Char := boldRunF (cs.length + 1) cs

/-- Lazy tail matcher for `(.+?)\*`. -/
def italClose : List Char → Option (List Char × List Char)
  | [] => none
  | c :: cs =>
    if c = '\n' then none
    else
      match cs with
      | '*' :: rest => some ([c], rest)
      | _ =>
        match italClose cs with
        | some (g, r) => some (c :: g, r)
        | none => none

/-- Global scan of `replace(/\*(.+?)\*\/g, '<em>$1</em>')`. -/
def italRunF : Nat → List Char → List Char
  | 0, cs => cs
  | _ + 1, [] => []
  | fuel + 1, c :: cs =>
    if c = '*' then
      match italClose cs with
      | some (g, r) => ("<em>").data ++ g ++ ("</em>").data ++ italRunF fuel r
      | none => c :: italRunF fuel cs
    else c :: italRunF fuel cs

/-- Wrapper with sufficient fuel. -/
def italRun (cs : List Char) : List Char := italRunF (cs.length + 1) cs

/-- Replacement produced for a `- ` list line. -/
def liOpen : List Char := ("<li style=\"margin:0.25rem 0;padding-left:0.25rem;\">").data

/-- Helper recognising `</li>` at the current position. -/
def closeSplit : Char → List Char → Option (List Char)
  | '<', '/' :: 'l' :: 'i' :: '>' :: rest => some rest
  | _, _ => none

/-- Split a newline-free line at the end of its LAST `</li>` occurrence,
as the greedy `.*<\/li>` does.  Returns `(through the close, after)`. -/
def splitLastClose : List Char → Option (List Char × List Char)
  | [] => none
  | c :: cs =>
    match splitLastClose cs with
    | some (p, q) => some (c :: p, q)
    | none =>
      match closeSplit c cs with
      | some rest => some (['<', '/', 'l', 'i', '>'], rest)
      | none => none

/-- One group of `(<li.*<\/li>\n?)`: the literal `<li`, the greedy
newline-free gap up to the last `</li>` of the current line, then an
optional newline.  Returns `(matched, rest)`. -/
def ulGroup : List Char → Option (List Char × List Char)
  | '<' :: 'l' :: 'i' :: rest =>
    match splitLastClose (rest.takeWhile (· ≠ '\n')) with
    | some (p, q) =>
      match q, rest.dropWhile (· ≠ '\n') with
      | [], '\n' :: a2 => some ('<' :: 'l' :: 'i' :: (p ++ ['\n']), a2)
      | _, _ => some ('<' :: 'l' :: 'i' :: p, q ++ rest.dropWhile (· ≠ '\n'))
    | none => none
  | _ => none

/-- One-or-more repetition of `ulGroup`. -/
def ulPlusF : Nat → List Char → Option (List Char × List Char)
  | 0, _ => none
  | fuel + 1, cs =>
    match ulGroup cs with
    | none => none
    | some (g, rest) =>
      match ulPlusF fuel rest with
      | some (gs, rest2) => some (g ++ gs, rest2)
      | none => some (g, rest)

/-- Opening tag of the list wrapper. -/
def ulOpen : List Char := ("<ul style=\"list-style:disc;padding-left:1.25rem;margin:0.5rem 0;\">").data

/-- Global scan of `replace(/(<li.*<\/li>\n?)+/g, '<ul ...>$&</ul>')`. -/
def ulRunF : Nat → List Char → List Char
  | 0, cs => cs
  | _ + 1, [] => []
  | fuel + 1, c :: cs =>
    match ulPlusF (c :: cs).length (c :: cs) with
    | some (g, rest) => ulOpen ++ g ++ ("</ul>").data ++ ulRunF fuel rest
    | none => c :: ulRunF fuel cs

/-- Wrapper with sufficient fuel. -/
def ulRun (cs : List Char) : List Char := ulRunF (cs.length + 1) cs

/-- The stage `replace(/\n\n/g, '<br/><br/>')`: left-to-right non-overlapping
newline pairs. -/
def paraRun : List Char → List Char
  | [] => []
  | c :: cs =>
    if c = '\n' then
      match cs with
      | c2 :: cs2 =>
        if c2 = '\n' then ("<br/><br/>").data ++ paraRun cs2 else c :: paraRun (c2 :: cs2)
      | [] => [c]
    else c :: paraRun cs

/-- The stage `replace(/\n/g, '<br/>')`. -/
def nlRun : List Char → List Char
  | [] => []
  | c :: cs => if c = '\n' then ("<br/>").data ++ nlRun cs else c :: nlRun cs

/-- The nine-stage substitution chain of `previewHtml` (source lines
115-124), in source order. -/
def renderChain (st : PdfStyle) (cs : List Char) : List Char :=
  nlRun (paraRun (ulRun (lineMap
    (hLine ("- ").data liOpen ("</li>").data)
    (italRun (boldRun (lineMap (hLine ("# ").data (h1Open st) ("</h1>").data)
      (lineMap (hLine ("## ").data (h2Open st) ("</h2>").data)
        (lineMap (hLine ("### ").data (h3Open st) ("</h3>").data) cs))))))))

/-- Opening tag of the synthesized title heading (source line 128). -/
def h1SynthOpen (st : PdfStyle) : List Char :=
  ("<h1 style=\"font-family:").data ++ styleFont st ++
    (";font-size:1.5rem;font-weight:bold;margin-bottom:1rem;color:").data ++
    styleTitleColor st ++ (";\">").data

/-- The full `previewHtml` computation (source lines 84-132): derive the
title, strip it from the content, run the substitution chain, and prepend
the synthesized heading unless the ORIGINAL notes start with `# `. -/
def previewHtml (title : List Char) (file : Option (List Char))
    (notes : List Char) (st : PdfStyle) : List Char :=
  if (['#', ' '].isPrefixOf notes : Bool) then
    renderChain st (stripPreview (derivedTitle title notes file) notes)
  else
    h1SynthOpen st ++ derivedTitle title notes file ++ ("</h1>").data ++
      renderChain st (stripPreview (derivedTitle title notes file) notes)

set_option maxRecDepth 10000

/-- C6: for every combination of data/transcript flags, processing state
and current step, the load-time guard produces exactly one corrected step,
and it is one of the four valid steps.  (`isProcessing` of the claim is
`isProcessingState ps`; quantifying over `ps` covers every combination of
the booleans in the claim.) -/
theorem loadGuard_total (st : Step) (hasData hasTrans : Bool) (ps : ProcState) :
    ∃! s : Step, loadGuardStep st hasData hasTrans ps = s ∧
      (s = Step.upload ∨ s = Step.transcribing ∨ s = Step.aiProcessing ∨ s = Step.editor) := by
  refine ⟨loadGuardStep st hasData hasTrans ps, ⟨rfl, ?_⟩, ?_⟩
  · cases loadGuardStep st hasData hasTrans ps <;> simp
  · rintro y ⟨hy, -⟩
    exact hy.symm

/-- C7 counterexample: with `processingState = 'done'` and the recorded
step `upload`, the guard does NOT correct the step to `ai-processing` (it
leaves it at `upload`), because `done` is not one of the active states the
first guard tests for, so its `'ai-processing'` arm is unreachable. -/
theorem loadGuard_done_counterexample :
    loadGuardStep Step.upload false false ProcState.done = Step.upload ∧
      loadGuardStep Step.upload false false ProcState.done ≠ Step.aiProcessing := by
  decide

/-- C7 amended: whenever processing is active (`compressing`, `uploading`
or `transcribing`) and the recorded step is `upload`, the guard corrects
the step to `transcribing`; the `ai-processing` target of the conditional
is dead code, since it would require `processingState = 'done'`, which is
not an active state. -/
theorem loadGuard_active_transcribing (hasData hasTrans : Bool) (ps : ProcState)
    (hps : isProcessingState ps = true) :
    loadGuardStep Step.upload hasData hasTrans ps = Step.transcribing := by
  cases ps <;> simp_all [loadGuardStep, isProcessingState]

/-- Witness for `loadGuard_active_transcribing` at a concrete input. -/
theorem loadGuard_active_transcribing_witness :
    isProcessingState ProcState.compressing = true ∧
      loadGuardStep Step.upload false false ProcState.compressing = Step.transcribing :=
  ⟨by decide, loadGuard_active_transcribing false false ProcState.compressing (by decide)⟩

/-- C8: the popstate guards: with notes data, navigation to `transcribing`
or `ai-processing` lands on `editor`; navigation to `editor` without data
lands on `upload`; every other target is adopted as-is; and with data the
resulting step is never `transcribing` or `ai-processing`. -/
theorem popstate_guards (target : Option Step) (hasData : Bool) :
    (∀ s, target = some s → hasData = true →
        (s = Step.transcribing ∨ s = Step.aiProcessing) →
        handlePopState target hasData = Step.editor) ∧
    (target = some Step.editor → hasData = false →
        handlePopState target hasData = Step.upload) ∧
    (∀ s, target = some s →
        (hasData = true → s ≠ Step.transcribing ∧ s ≠ Step.aiProcessing) →
        (s = Step.editor → hasData = true) →
        handlePopState target hasData = s) ∧
    (hasData = true → handlePopState target hasData ≠ Step.transcribing ∧
        handlePopState target hasData ≠ Step.aiProcessing) := by
  rcases target with - | s
  · refine ⟨by rintro s ⟨⟩, by rintro ⟨⟩, by rintro s ⟨⟩, ?_⟩
    intro h
    exact ⟨by simp [handlePopState], by simp [handlePopState]⟩
  · cases s <;> cases hasData <;>
      refine ⟨?_, ?_, ?_, ?_⟩ <;> intros <;> simp_all [handlePopState]

/-- Witness for `popstate_guards` at a concrete input. -/
theorem popstate_guards_witness :
    handlePopState (some Step.transcribing) true = Step.editor :=
  (popstate_guards (some Step.transcribing) true).1 Step.transcribing rfl rfl (Or.inl rfl)

/-- C9: the language and theme event handlers ignore every payload other
than the exact valid values, and adopt exactly those. -/
theorem eventHandlers_validate (detail : Option (List Char)) (loc theme : List Char) :
    ((∀ d, detail = some d → d ≠ ("es").data ∧ d ≠ ("en").data) →
        handleLangChange detail loc = loc) ∧
    (detail = none → handleLangChange detail loc = loc) ∧
    (handleLangChange (some ("es").data) loc = ("es").data ∧
        handleLangChange (some ("en").data) loc = ("en").data) ∧
    ((∀ d, detail = some d → d ≠ ("light").data ∧ d ≠ ("dark").data) →
        handleThemeChange detail theme = theme) ∧
    (detail = none → handleThemeChange detail theme = theme) ∧
    (handleThemeChange (some ("light").data) theme = ("light").data ∧
        handleThemeChange (some ("dark").data) theme = ("dark").data) := by
  refine ⟨?_, ?_, ⟨by simp [handleLangChange], by simp [handleLangChange]⟩, ?_, ?_,
    ⟨by simp [handleThemeChange], by simp [handleThemeChange]⟩⟩
  · intro h
    rcases detail with - | d
    · rfl
    · obtain ⟨h1, h2⟩ := h d rfl
      simp [handleLangChange, h1, h2]
  · rintro rfl; rfl
  · intro h
    rcases detail with - | d
    · rfl
    · obtain ⟨h1, h2⟩ := h d rfl
      simp [handleThemeChange, h1, h2]
  · rintro rfl; rfl

/-- Witness for `eventHandlers_validate` at a concrete invalid payload. -/
theorem eventHandlers_validate_witness :
    handleLangChange (some ("fr").data) ("es").data = ("es").data ∧
      handleThemeChange (some ("blue").data) ("dark").data = ("dark").data :=
  ⟨(eventHandlers_validate (some ("fr").data) ("es").data ("dark").data).1
      (fun d hd => by cases hd; exact ⟨by decide, by decide⟩),
    (eventHandlers_validate (some ("blue").data) ("es").data ("dark").data).2.2.2.1
      (fun d hd => by cases hd; exact ⟨by decide, by decide⟩)⟩

/-- C10: a popstate event whose history state carries no step defaults to
`upload`, whatever the data situation. -/
theorem popstate_missing_state_default (hasData : Bool) :
    handlePopState none hasData = Step.upload := rfl

/-- C4: if the notes do not start with a level-1 heading marker, the
preview HTML begins with the synthesized title heading containing the
derived title; if they do, the preview is exactly the rendered stripped
content, with nothing prepended. -/
theorem preview_synthesized_title (title : List Char) (file : Option (List Char))
    (notes : List Char) (st : PdfStyle) :
    ((['#', ' '].isPrefixOf notes) = false →
        ∃ rest, previewHtml title file notes st =
          h1SynthOpen st ++ derivedTitle title notes file ++ ("</h1>").data ++ rest) ∧
    ((['#', ' '].isPrefixOf notes) = true →
        previewHtml title file notes st =
          renderChain st (stripPreview (derivedTitle title notes file) notes)) := by
  constructor
  · intro h
    exact ⟨renderChain st (stripPreview (derivedTitle title notes file) notes),
      by simp [previewHtml, h]⟩
  · intro h
    simp [previewHtml, h]

/-- Witness for `preview_synthesized_title` at a concrete input. -/
theorem preview_synthesized_title_witness :
    ∃ rest, previewHtml [] none ("x").data PdfStyle.minimalista =
      h1SynthOpen PdfStyle.minimalista ++ derivedTitle [] ("x").data none ++ ("</h1>").data ++ rest :=
  (preview_synthesized_title [] none ("x").data PdfStyle.minimalista).1 (by decide)

/-- C5 counterexample: preview rendering is not idempotent, already on the
title-heading-free content `x`: the second rendering prepends a second
synthesized title heading. -/
theorem preview_not_idempotent_counterexample :
    previewHtml [] none (previewHtml [] none ("x").data PdfStyle.minimalista) PdfStyle.minimalista ≠
      previewHtml [] none ("x").data PdfStyle.minimalista := by
  decide

/-- C1 counterexample: on `"\n# Hello World"` (no explicit title, no
file), whose FIRST LINE is empty and hence not a heading, the claim's
precedence mandates the fallback `Notes`; the code returns `Hello World`,
because the `\s*` of its fallback regex crosses the leading newline. -/
theorem derivedTitle_first_line_counterexample :
    derivedTitle [] ("\n# Hello World").data none = ("Hello World").data ∧
      claimTitle [] ("\n# Hello World").data none = ("Notes").data ∧
      derivedTitle [] ("\n# Hello World").data none ≠ claimTitle [] ("\n# Hello World").data none := by
  refine ⟨by decide, by decide, by decide⟩

/-- C2 counterexample: the notes below contain the block
`## Título` followed by the line `B`, yet derivation returns `A` (the
first matching block wins), so the extraction is NOT independent of the
surrounding content. -/
theorem titulo_surrounding_counterexample :
    containsSub (("## Título\nB").data) (("## Título\nA\n## Título\nB").data) = true ∧
      derivedTitle [] (("## Título\nA\n## Título\nB").data) none = ("A").data ∧
      ("A").data ≠ ("B").data := by
  refine ⟨by decide, by decide, by decide⟩

/-- C3 counterexample: the Título branch of the stripping transform
removes TWO lines, the `## Título` heading line and the following
title-text line; removing only the single heading line would leave
`My Title\nBody`. -/
theorem strip_two_lines_counterexample :
    stripDownload ("My Title").data ("## Título\nMy Title\nBody").data = ("Body").data ∧
      ("Body").data ≠ ("My Title\nBody").data := by
  refine ⟨by decide, by decide⟩

/-- Characters of an all-satisfying prefix before a failing character:
`takeWhile` takes exactly the prefix. -/
theorem takeWhile_all_append (p : Char → Bool) (xs : List Char) (y : Char) (ys : List Char)
    (hall : ∀ x ∈ xs, p x = true) (hy : p y = false) :
    (xs ++ y :: ys).takeWhile p = xs := by
  induction xs with
  | nil => simp [List.takeWhile_cons_of_neg, hy]
  | cons a as ih =>
    rw [List.cons_append, List.takeWhile_cons_of_pos (hall a (List.mem_cons_self a as))]
    rw [ih (fun x hx => hall x (List.mem_cons_of_mem a hx))]

/-- Companion of `takeWhile_all_append` for `dropWhile`. -/
theorem dropWhile_all_append (p : Char → Bool) (xs : List Char) (y : Char) (ys : List Char)
    (hall : ∀ x ∈ xs, p x = true) (hy : p y = false) :
    (xs ++ y :: ys).dropWhile p = y :: ys := by
  induction xs with
  | nil => simp [List.dropWhile_cons_of_neg, hy]
  | cons a as ih =>
    rw [List.cons_append, List.dropWhile_cons_of_pos (hall a (List.mem_cons_self a as))]
    exact ih (fun x hx => hall x (List.mem_cons_of_mem a hx))

/-- Soundness of `capPart`: the match splits the input and the matched
text is the non-empty newline-free capture followed by newlines. -/
theorem capPart_split (cs m cap r : List Char) (h : capPart cs = some (m, cap, r)) :
    cs = m ++ r ∧ ∃ nls, m = cap ++ nls ∧ cap ≠ [] ∧ '\n' ∉ cap ∧ (∀ x ∈ nls, x = '\n') := by
  match cs with
  | [] => exact absurd h (by simp [capPart])
  | c :: cs' =>
    rw [capPart] at h
    by_cases hc : c = '\n'
    · rw [if_pos hc] at h
      exact absurd h (by simp)
    · rw [if_neg hc] at h
      simp only [Option.some.injEq, Prod.mk.injEq] at h
      obtain ⟨h1, h2, h3⟩ := h
      subst h2 h3
      constructor
      · rw [← h1]
        conv_lhs => rw [show cs' = cs'.takeWhile (· ≠ '\n') ++ cs'.dropWhile (· ≠ '\n') from
          (List.takeWhile_append_dropWhile _ _).symm]
        conv_lhs => rw [show cs'.dropWhile (· ≠ '\n') =
          (cs'.dropWhile (· ≠ '\n')).takeWhile (· = '\n') ++
            (cs'.dropWhile (· ≠ '\n')).dropWhile (· = '\n') from
          (List.takeWhile_append_dropWhile _ _).symm]
        simp
      · refine ⟨(cs'.dropWhile (· ≠ '\n')).takeWhile (· = '\n'), by rw [← h1],
          by simp, ?_, ?_⟩
        · intro hmem
          rcases List.mem_cons.mp hmem with h' | h'
          · exact hc h'.symm
          · have := List.mem_takeWhile_imp h'
            simp at this
        · intro x hx
          have := List.mem_takeWhile_imp hx
          simpa using this

/-- Soundness of `nlTail`. -/
theorem nlTail_split (cs m cap r : List Char) (h : nlTail cs = some (m, cap, r)) :
    cs = m ++ r ∧ IsTituloTail m cap := by
  match cs with
  | [] => exact absurd h (by simp [nlTail])
  | c :: cs' =>
    rw [nlTail] at h
    by_cases hc : c = '\n'
    swap
    · rw [if_neg hc] at h
      exact absurd h (by simp)
    · rw [if_pos hc] at h
      rcases hcp : capPart (cs'.dropWhile (· = '\n')) with - | ⟨m1, cap1, r1⟩ <;> rw [hcp] at h
      · exact absurd h (by simp)
      · simp only [Option.some.injEq, Prod.mk.injEq] at h
        obtain ⟨h1, h2, h3⟩ := h
        subst h2 h3
        obtain ⟨hsplit, nls2, hm1, hcap, hnl, hall2⟩ := capPart_split _ _ _ _ hcp
        constructor
        · rw [← h1]
          conv_lhs => rw [show cs' = cs'.takeWhile (· = '\n') ++ cs'.dropWhile (· = '\n') from
            (List.takeWhile_append_dropWhile _ _).symm]
          rw [hsplit]
          simp
        · refine ⟨[], c :: cs'.takeWhile (· = '\n'), nls2, ?_, by simp, by simp, ?_, hcap, hnl, hall2⟩
          · rw [← h1, hm1]
            simp
          · intro x hx
            rcases List.mem_cons.mp hx with h' | h'
            · exact h'.trans hc
            · have := List.mem_takeWhile_imp h'
              simpa using this

/-- Soundness of `tituloTail`. -/
theorem tituloTail_split (cs m cap r : List Char) (h : tituloTail cs = some (m, cap, r)) :
    cs = m ++ r ∧ IsTituloTail m cap := by
  induction cs generalizing m with
  | nil => exact absurd h (by simp [tituloTail])
  | cons c cs' ih =>
    rw [tituloTail] at h
    by_cases hws : isWsChar c = true
    swap
    · rw [if_neg hws] at h
      exact nlTail_split _ _ _ _ h
    · rw [if_pos hws] at h
      rcases htt : tituloTail cs' with - | ⟨m', cap', r'⟩ <;> rw [htt] at h
      · exact nlTail_split _ _ _ _ h
      · simp only [Option.some.injEq, Prod.mk.injEq] at h
        obtain ⟨h1, h2, h3⟩ := h
        subst h2 h3
        obtain ⟨hsplit, ws, nls, nls2, hm', hallws, hnls, hallnl, hcap, hnl, hall2⟩ := ih _ htt
        constructor
        · rw [← h1, hsplit]; simp
        · refine ⟨c :: ws, nls, nls2, ?_, ?_, hnls, hallnl, hcap, hnl, hall2⟩
          · rw [← h1, hm']; simp
          · intro x hx
            rcases List.mem_cons.mp hx with h' | h'
            · exact h' ▸ hws
            · exact hallws x h'

/-- Soundness of `tituloAt`: a match splits the input and the matched text
is a full `Título` block. -/
theorem tituloAt_split (cs m cap r : List Char) (h : tituloAt cs = some (m, cap, r)) :
    cs = m ++ r ∧ IsTituloBlock m := by
  unfold tituloAt at h
  split at h
  case h_2 => exact absurd h (by simp)
  case h_1 _ c rest =>
    by_cases hc : c = 'í' ∨ c = 'i'
    swap
    · rw [if_neg hc] at h
      exact absurd h (by simp)
    · rw [if_pos hc] at h
      rcases htt : tituloTail rest with - | ⟨m', cap', r'⟩ <;> rw [htt] at h
      · exact absurd h (by simp)
      · simp only [Option.some.injEq, Prod.mk.injEq] at h
        obtain ⟨h1, h2, h3⟩ := h
        subst h2 h3
        obtain ⟨hsplit, tail⟩ := tituloTail_split _ _ _ _ htt
        constructor
        · rw [← h1, hsplit]; simp
        · exact ⟨c, m', _, by rw [← h1], hc, tail⟩

/-- Soundness of the multiline scan: a match splits the input around a
`Título` block. -/
theorem findTBF_split (fuel : Nat) (cs p m cap r : List Char)
    (h : findTBF fuel cs = some (p, m, cap, r)) : cs = p ++ m ++ r ∧ IsTituloBlock m := by
  induction fuel generalizing cs p with
  | zero => exact absurd h (by simp [findTBF])
  | succ fuel ih =>
    rw [findTBF] at h
    split at h
    next m0 cap0 r0 hta =>
      simp only [Option.some.injEq, Prod.mk.injEq] at h
      obtain ⟨h1, h2, h3, h4⟩ := h
      subst h2 h3 h4
      obtain ⟨hsplit, hblock⟩ := tituloAt_split _ _ _ _ hta
      exact ⟨by rw [← h1, hsplit]; simp, hblock⟩
    next hta =>
      split at h
      next => exact absurd h (by simp)
      next x tail hdw =>
        split at h
        next p' m' cap' r' hrec =>
          simp only [Option.some.injEq, Prod.mk.injEq] at h
          obtain ⟨h1, h2, h3, h4⟩ := h
          subst h2 h3 h4
          obtain ⟨hsplit, hblock⟩ := ih tail p' hrec
          refine ⟨?_, hblock⟩
          rw [← h1]
          conv_lhs => rw [show cs = cs.takeWhile (· ≠ '\n') ++ cs.dropWhile (· ≠ '\n') from
            (List.takeWhile_append_dropWhile _ _).symm]
          rw [hdw, hsplit]
          simp
        next => exact absurd h (by simp)

/-- Soundness of `findTB`. -/
theorem findTB_split (cs p m cap r : List Char) (h : findTB cs = some (p, m, cap, r)) :
    cs = p ++ m ++ r ∧ IsTituloBlock m :=
  findTBF_split _ cs p m cap r h

/-- A `Título` block is non-empty and contains a `#`. -/
theorem tituloBlock_hash_mem {m : List Char} (h : IsTituloBlock m) :
    m ≠ [] ∧ '#' ∈ m := by
  obtain ⟨c, tm, cap, hm, -, -⟩ := h
  subst hm
  exact ⟨by simp, by simp⟩

/-- With no `#` in the input, the multiline `Título` scan fails. -/
theorem findTB_no_hash (cs : List Char) (h : '#' ∉ cs) : findTB cs = none := by
  rcases hf : findTB cs with - | ⟨⟨p, m, cap, r⟩⟩
  · rfl
  · obtain ⟨hsplit, hblock⟩ := findTB_split _ _ _ _ _ hf
    refine absurd ?_ h
    rw [hsplit]
    have := (tituloBlock_hash_mem hblock).2
    simp [this]

/-- Soundness of `wsMore`. -/
theorem wsMore_split (cs m cap r : List Char) (h : wsMore cs = some (m, cap, r)) :
    cs = m ++ r ∧ IsHeadingTail m cap := by
  induction cs generalizing m with
  | nil => exact absurd h (by simp [wsMore])
  | cons c cs' ih =>
    rw [wsMore] at h
    by_cases hws : isWsChar c = true
    swap
    · rw [if_neg hws] at h
      obtain ⟨hsplit, nls, hm, hcap, hnl, hall⟩ := capPart_split _ _ _ _ h
      exact ⟨hsplit, [], nls, by rw [hm]; simp, by simp, hcap, hnl, hall⟩
    · rw [if_pos hws] at h
      rcases hwm : wsMore cs' with - | ⟨m', cap', r'⟩ <;> rw [hwm] at h
      · obtain ⟨hsplit, nls, hm, hcap, hnl, hall⟩ := capPart_split _ _ _ _ h
        exact ⟨hsplit, [], nls, by rw [hm]; simp, by simp, hcap, hnl, hall⟩
      · simp only [Option.some.injEq, Prod.mk.injEq] at h
        obtain ⟨h1, h2, h3⟩ := h
        subst h2 h3
        obtain ⟨hsplit, sp, nls2, hm', hallsp, hcap, hnl, hall2⟩ := ih _ hwm
        refine ⟨by rw [← h1, hsplit]; simp, c :: sp, nls2, by rw [← h1, hm']; simp, ?_, hcap, hnl, hall2⟩
        intro x hx
        rcases List.mem_cons.mp hx with h' | h'
        · exact h' ▸ hws
        · exact hallsp x h'

/-- Soundness of `wsCapTail`. -/
theorem wsCapTail_split (cs m cap r : List Char) (h : wsCapTail cs = some (m, cap, r)) :
    cs = m ++ r ∧ IsHeadingTail m cap := by
  match cs with
  | [] => exact absurd h (by simp [wsCapTail])
  | c :: cs' =>
    rw [wsCapTail] at h
    by_cases hws : isWsChar c = true
    swap
    · rw [if_neg hws] at h
      exact absurd h (by simp)
    · rw [if_pos hws] at h
      rcases hwm : wsMore cs' with - | ⟨m', cap', r'⟩ <;> rw [hwm] at h
      · exact absurd h (by simp)
      · simp only [Option.some.injEq, Prod.mk.injEq] at h
        obtain ⟨h1, h2, h3⟩ := h
        subst h2 h3
        obtain ⟨hsplit, sp, nls2, hm', hallsp, hcap, hnl, hall2⟩ := wsMore_split _ _ _ _ hwm
        refine ⟨by rw [← h1, hsplit]; simp, c :: sp, nls2, by rw [← h1, hm']; simp, ?_, hcap, hnl, hall2⟩
        intro x hx
        rcases List.mem_cons.mp hx with h' | h'
        · exact h' ▸ hws
        · exact hallsp x h'

/-- Soundness of `firstHeading`: a match splits the input at a single
start-anchored heading block. -/
theorem firstHeading_split (cs m cap r : List Char) (h : firstHeading cs = some (m, cap, r)) :
    cs = m ++ r ∧ IsHeadingBlock m := by
  have hws : ∀ x ∈ cs.takeWhile isWsChar, isWsChar x = true := fun x hx => List.mem_takeWhile_imp hx
  unfold firstHeading at h
  split at h
  case h_3 => exact absurd h (by simp)
  case h_1 _ r2 heq =>
    rcases hwc : wsCapTail r2 with - | ⟨m', cap', r'⟩ <;> rw [hwc] at h
    · exact absurd h (by simp)
    · simp only [Option.some.injEq, Prod.mk.injEq] at h
      obtain ⟨h1, h2, h3⟩ := h
      subst h2 h3
      obtain ⟨hsplit, tail⟩ := wsCapTail_split _ _ _ _ hwc
      constructor
      · conv_lhs => rw [show cs = cs.takeWhile isWsChar ++ cs.dropWhile isWsChar from
          (List.takeWhile_append_dropWhile _ _).symm]
        rw [heq, hsplit, ← h1]
        simp
      · exact ⟨cs.takeWhile isWsChar, ['#', '#'], m', _, by rw [← h1]; simp, hws, Or.inr rfl, tail⟩
  case h_2 _ r1 hne heq =>
    rcases hwc : wsCapTail r1 with - | ⟨m', cap', r'⟩ <;> rw [hwc] at h
    · exact absurd h (by simp)
    · simp only [Option.some.injEq, Prod.mk.injEq] at h
      obtain ⟨h1, h2, h3⟩ := h
      subst h2 h3
      obtain ⟨hsplit, tail⟩ := wsCapTail_split _ _ _ _ hwc
      constructor
      · conv_lhs => rw [show cs = cs.takeWhile isWsChar ++ cs.dropWhile isWsChar from
          (List.takeWhile_append_dropWhile _ _).symm]
        rw [heq, hsplit, ← h1]
        simp
      · exact ⟨cs.takeWhile isWsChar, ['#'], m', _, by rw [← h1]; simp, hws, Or.inl rfl, tail⟩

/-- A start-anchored heading block contains a `#`. -/
theorem headingBlock_hash_mem {m : List Char} (h : IsHeadingBlock m) : '#' ∈ m := by
  obtain ⟨ws, hs, tm, cap, hm, -, hhs, -⟩ := h
  subst hm
  rcases hhs with h' | h' <;> subst h' <;> simp

/-- With no `#` in the input, the start-anchored heading matcher fails. -/
theorem firstHeading_no_hash (cs : List Char) (h : '#' ∉ cs) : firstHeading cs = none := by
  rcases hf : firstHeading cs with - | ⟨⟨m, cap, r⟩⟩
  · rfl
  · obtain ⟨hsplit, hblock⟩ := firstHeading_split _ _ _ _ hf
    refine absurd ?_ h
    rw [hsplit]
    simp [headingBlock_hash_mem hblock]

/-- Dropping leading whitespace does not change the number of `#`
characters. -/
theorem count_hash_dropWhile (cs : List Char) :
    List.count '#' (cs.dropWhile isWsChar) = List.count '#' cs := by
  induction cs with
  | nil => rfl
  | cons c cs ih =>
    by_cases hc : isWsChar c = true
    · have hne : '#' ≠ c := by
        intro h'
        subst h'
        simp [isWsChar] at hc
      rw [List.dropWhile_cons_of_pos hc, ih, List.count_cons_of_ne hne]
    · rw [List.dropWhile_cons_of_neg hc]

/-- Trimming does not change the number of `#` characters. -/
theorem count_hash_trimWs (cs : List Char) :
    List.count '#' (trimWs cs) = List.count '#' cs := by
  unfold trimWs
  rw [List.count_reverse, count_hash_dropWhile, List.count_reverse, count_hash_dropWhile]

/-- Splicing out a non-empty middle changes the string. -/
theorem append_middle_ne (p m r : List Char) (hm : m ≠ []) : p ++ r ≠ p ++ m ++ r := by
  intro h
  have := congrArg List.length h
  simp only [List.length_append] at this
  have : m.length = 0 := by omega
  exact hm (List.length_eq_zero.mp this)

/-- Splicing out a middle containing a `#` changes the string even after
trimming. -/
theorem trim_middle_ne (p m r : List Char) (hm : '#' ∈ m) :
    trimWs (p ++ r) ≠ trimWs (p ++ m ++ r) := by
  intro h
  have h2 := congrArg (List.count '#') h
  rw [count_hash_trimWs, count_hash_trimWs] at h2
  simp only [List.count_append] at h2
  have := List.count_pos_iff.mpr hm
  omega

/-- C3 amended: both stripping transforms (the download one and the
preview one) are total functions that, on content containing no `#` at
all, return the content unchanged up to trimming, and in general remove at
most ONE matched block before trimming: either nothing, or a full `Título`
block (the heading line TOGETHER WITH the single following title line),
or the single start-anchored heading line. -/
theorem strip_at_most_one_block (dt content : List Char) :
    ('#' ∉ content → stripDownload dt content = trimWs content ∧
        stripPreview dt content = trimWs content) ∧
    (∃ pre mid post, content = pre ++ mid ++ post ∧
        stripDownload dt content = trimWs (pre ++ post) ∧
        (mid = [] ∨ IsTituloBlock mid ∨ (pre = [] ∧ IsHeadingBlock mid))) ∧
    (∃ pre mid post, content = pre ++ mid ++ post ∧
        stripPreview dt content = trimWs (pre ++ post) ∧
        (mid = [] ∨ IsTituloBlock mid ∨ (pre = [] ∧ IsHeadingBlock mid))) := by
  refine ⟨?_, ?_, ?_⟩
  · intro h
    have hTB := findTB_no_hash content h
    have hFH := firstHeading_no_hash content h
    constructor
    · simp [stripDownload, replaceTitulo, hTB, hFH]
    · simp [stripPreview, replaceTitulo, hTB, hFH]
  · rcases hTB : findTB content with - | ⟨⟨p, m, cap, r⟩⟩
    · have hrt : replaceTitulo content = content := by simp [replaceTitulo, hTB]
      rcases hFH : firstHeading content with - | ⟨⟨m, cap, r⟩⟩
      · exact ⟨content, [], [], by simp, by simp [stripDownload, hrt, hFH], Or.inl rfl⟩
      · obtain ⟨hsplit, hblock⟩ := firstHeading_split _ _ _ _ hFH
        by_cases hdt : removeStars (trimWs cap) = dt
        · refine ⟨[], m, r, by simpa using hsplit, ?_, Or.inr (Or.inr ⟨rfl, hblock⟩)⟩
          simp [stripDownload, hrt, hFH, hdt, replaceFirstHeading]
        · exact ⟨content, [], [], by simp, by simp [stripDownload, hrt, hFH, hdt], Or.inl rfl⟩
    · obtain ⟨hsplit, hblock⟩ := findTB_split _ _ _ _ _ hTB
      have hrt : replaceTitulo content = p ++ r := by simp [replaceTitulo, hTB]
      have hne : replaceTitulo content ≠ content := by
        rw [hrt, hsplit]
        exact append_middle_ne p m r (tituloBlock_hash_mem hblock).1
      refine ⟨p, m, r, hsplit, ?_, Or.inr (Or.inl hblock)⟩
      simp only [stripDownload, hrt]
      rw [if_neg]
      intro hcontra
      rw [hsplit] at hcontra
      exact absurd hcontra (append_middle_ne p m r (tituloBlock_hash_mem hblock).1)
  · rcases hTB : findTB content with - | ⟨⟨p, m, cap, r⟩⟩
    · have hrt : replaceTitulo content = content := by simp [replaceTitulo, hTB]
      rcases hFH : firstHeading content with - | ⟨⟨m, cap, r⟩⟩
      · exact ⟨content, [], [], by simp, by simp [stripPreview, hrt, hFH], Or.inl rfl⟩
      · obtain ⟨hsplit, hblock⟩ := firstHeading_split _ _ _ _ hFH
        by_cases hdt : removeStars (trimWs cap) = dt
        · refine ⟨[], m, r, by simpa using hsplit, ?_, Or.inr (Or.inr ⟨rfl, hblock⟩)⟩
          simp [stripPreview, hrt, hFH, hdt, replaceFirstHeading]
        · exact ⟨content, [], [], by simp, by simp [stripPreview, hrt, hFH, hdt], Or.inl rfl⟩
    · obtain ⟨hsplit, hblock⟩ := findTB_split _ _ _ _ _ hTB
      have hrt : replaceTitulo content = p ++ r := by simp [replaceTitulo, hTB]
      have hne : trimWs (replaceTitulo content) ≠ trimWs content := by
        rw [hrt]
        conv_rhs => rw [hsplit]
        exact trim_middle_ne p m r (tituloBlock_hash_mem hblock).2
      refine ⟨p, m, r, hsplit, ?_, Or.inr (Or.inl hblock)⟩
      simp only [stripPreview, hrt]
      rw [if_neg]
      intro hcontra
      conv_rhs at hcontra => rw [hsplit]
      exact absurd hcontra (trim_middle_ne p m r (tituloBlock_hash_mem hblock).2)

/-- Witness for `strip_at_most_one_block` on hash-free content. -/
theorem strip_at_most_one_block_witness :
    stripDownload ("T").data ("hello world").data = ("hello world").data ∧
      stripPreview ("T").data ("hello world").data = ("hello world").data := by
  have h := (strip_at_most_one_block ("T").data ("hello world").data).1 (by decide)
  exact ⟨h.1.trans (by decide), h.2.trans (by decide)⟩

/-- C1 amended: the actual precedence of `derivedTitle` — non-empty
explicit title; else the capture of the first multiline `Título` match
(trimmed, `**` removed); else the capture of the start-anchored heading
matcher when free of reserved words (trimmed, `**` removed; the `\s`
classes of that pattern may cross newlines); else the file-name fallback.
Determinism is the first conjunct. -/
theorem derivedTitle_precedence (t notes : List Char) (f : Option (List Char)) :
    derivedTitle t notes f = derivedTitle t notes f ∧
    (t ≠ [] → derivedTitle t notes f = t) ∧
    (t = [] → ∀ p m cap r, findTB notes = some (p, m, cap, r) →
        derivedTitle t notes f = removeStars (trimWs cap)) ∧
    (t = [] → findTB notes = none → ∀ m cap r, firstHeading notes = some (m, cap, r) →
        (reservedAny (trimWs cap) = false → derivedTitle t notes f = removeStars (trimWs cap)) ∧
        (reservedAny (trimWs cap) = true → derivedTitle t notes f = fileFallback f)) ∧
    (t = [] → findTB notes = none → firstHeading notes = none →
        derivedTitle t notes f = fileFallback f) := by
  refine ⟨rfl, ?_, ?_, ?_, ?_⟩
  · intro ht
    simp [derivedTitle, ht]
  · rintro rfl p m cap r hf
    simp [derivedTitle, hf]
  · rintro rfl hTB m cap r hFH
    constructor
    · intro hres
      simp [derivedTitle, hTB, hFH, hres]
    · intro hres
      simp [derivedTitle, hTB, hFH, hres]
  · rintro rfl hTB hFH
    simp [derivedTitle, hTB, hFH]

/-- Witness for `derivedTitle_precedence`: the explicit-title branch at a
concrete input. -/
theorem derivedTitle_precedence_witness :
    derivedTitle ("T").data ("# A").data none = ("T").data :=
  (derivedTitle_precedence ("T").data ("# A").data none).2.1 (by decide)

/-- A line with visible content followed by further text never matches the
`\s*\n+...` tail: the backtracking stops at the first non-whitespace
character. -/
theorem tituloTail_append_none (L rest' : List Char) (hnl : '\n' ∉ L)
    (hx : ∃ x ∈ L, isWsChar x = false) : tituloTail (L ++ '\n' :: rest') = none := by
  induction L with
  | nil => simp at hx
  | cons c L' ih =>
    have hcnl : c ≠ '\n' := fun h => hnl (h ▸ List.mem_cons_self c L')
    rw [List.cons_append, tituloTail]
    by_cases hws : isWsChar c = true
    · rw [if_pos hws]
      have hx' : ∃ x ∈ L', isWsChar x = false := by
        obtain ⟨x, hxm, hxw⟩ := hx
        rcases List.mem_cons.mp hxm with h' | h'
        · exact absurd (h' ▸ hws) (by rw [hxw]; simp)
        · exact ⟨x, h', hxw⟩
      simp only [ih (fun h => hnl (List.mem_cons_of_mem c h)) hx']
      rw [nlTail, if_neg hcnl]
    · rw [if_neg hws]
      rw [nlTail, if_neg hcnl]

/-- At a block `\n<line>\n...` whose line is newline-free and has visible
content, the `\s*\n+([^\n]+)` tail captures exactly the line. -/
theorem tituloTail_block (L rest' : List Char) (hnl : '\n' ∉ L)
    (hx : ∃ x ∈ L, isWsChar x = false) :
    ∃ m r, tituloTail ('\n' :: (L ++ '\n' :: rest')) = some (m, L, r) := by
  match L, hx with
  | x :: L'', hx =>
    have hx1 : x ≠ '\n' := fun h => hnl (h ▸ List.mem_cons_self x L'')
    have hnl'' : ∀ y ∈ L'', (decide (y ≠ '\n')) = true := by
      intro y hy
      simp only [decide_eq_true_eq]
      exact fun h => hnl (List.mem_cons_of_mem x (h ▸ hy))
    rw [tituloTail, if_pos (by decide : isWsChar '\n' = true)]
    simp only [tituloTail_append_none (x :: L'') rest' hnl hx]
    rw [nlTail, if_pos rfl]
    have hdw : ((x :: L'') ++ '\n' :: rest').dropWhile (· = '\n') = (x :: L'') ++ '\n' :: rest' := by
      rw [List.cons_append, List.dropWhile_cons_of_neg]
      simp [hx1]
    have htw : ((x :: L'') ++ '\n' :: rest').takeWhile (· = '\n') = [] := by
      rw [List.cons_append, List.takeWhile_cons_of_neg]
      simp [hx1]
    rw [hdw, htw, List.cons_append, capPart, if_neg hx1]
    rw [takeWhile_all_append _ L'' '\n' rest' hnl'' (by simp)]
    exact ⟨_, _, rfl⟩

/-- C2 amended: with no explicit title set, on notes that BEGIN with the
block `## Título\n<line>` where `<line>` is newline-free and contains a
visible (non-whitespace) character, title derivation returns `<line>`
trimmed with all `**` markers removed, whatever follows the block.  (When
several such blocks occur, the first match in the string wins, so the
extraction is not independent of the surrounding content in general.) -/
theorem titulo_block_extraction (L rest' : List Char) (f : Option (List Char))
    (hnl : '\n' ∉ L) (hx : ∃ x ∈ L, isWsChar x = false) :
    derivedTitle [] (("## Título\n").data ++ L ++ '\n' :: rest') f =
      removeStars (trimWs L) := by
  obtain ⟨m, r, htail⟩ := tituloTail_block L rest' hnl hx
  have hdata : ("## Título\n").data ++ L ++ '\n' :: rest' =
      '#' :: '#' :: ' ' :: 'T' :: 'í' :: 't' :: 'u' :: 'l' :: 'o' ::
        ('\n' :: (L ++ '\n' :: rest')) := rfl
  rw [hdata]
  simp [derivedTitle, findTB, findTBF, tituloAt, htail]

/-- Witness for `titulo_block_extraction` at a concrete input. -/
theorem titulo_block_extraction_witness :
    derivedTitle [] (("## Título\n").data ++ ("My **Note**").data ++ '\n' :: ("body").data) none =
      ("My Note").data :=
  (titulo_block_extraction ("My **Note**").data ("body").data none (by decide)
    (by decide)).trans (by decide)

/-- The line splitter never yields an empty list of lines. -/
theorem splitLines_ne_nil (cs : List Char) : splitLines cs ≠ [] := by
  cases cs with
  | nil => simp [splitLines]
  | cons c cs =>
    rw [splitLines]
    by_cases hc : c = '\n'
    · simp [hc]
    · rw [if_neg hc]
      rcases hsp : splitLines cs with - | ⟨l0, ls⟩ <;> simp

/-- Every character of every line comes from the split input. -/
theorem mem_of_mem_splitLines (cs l : List Char) (hl : l ∈ splitLines cs) :
    ∀ x ∈ l, x ∈ cs := by
  induction cs generalizing l with
  | nil =>
    intro x hx
    simp [splitLines] at hl
    subst hl
    simp at hx
  | cons c cs ih =>
    intro x hx
    rw [splitLines] at hl
    by_cases hc : c = '\n'
    · rw [if_pos hc] at hl
      rcases List.mem_cons.mp hl with h' | h'
      · subst h'; simp at hx
      · exact List.mem_cons_of_mem c (ih l h' x hx)
    · rw [if_neg hc] at hl
      rcases hsp : splitLines cs with - | ⟨l0, ls⟩ <;> rw [hsp] at hl
      · rcases List.mem_cons.mp hl with h' | h'
        · subst h'
          rcases List.mem_cons.mp hx with h'' | h''
          · exact h'' ▸ List.mem_cons_self x cs
          · simp at h''
        · simp at h'
      · rcases List.mem_cons.mp hl with h' | h'
        · subst h'
          rcases List.mem_cons.mp hx with h'' | h''
          · exact h'' ▸ List.mem_cons_self x cs
          · exact List.mem_cons_of_mem c (ih l0 (hsp ▸ List.mem_cons_self l0 ls) x h'')
        · exact List.mem_cons_of_mem c (ih l (hsp ▸ List.mem_cons_of_mem l0 h') x hx)

/-- Rejoining the split lines restores the input. -/
theorem joinLines_splitLines (cs : List Char) : joinLines (splitLines cs) = cs := by
  induction cs with
  | nil => rfl
  | cons c cs ih =>
    rw [splitLines]
    by_cases hc : c = '\n'
    · rw [if_pos hc]
      rcases hsp : splitLines cs with - | ⟨l0, ls⟩
      · exact absurd hsp (splitLines_ne_nil cs)
      · rw [joinLines]
        subst hc
        rw [← hsp, ih]
        rfl
    · rw [if_neg hc]
      rcases hsp : splitLines cs with - | ⟨l0, ls⟩
      · exact absurd hsp (splitLines_ne_nil cs)
      · rcases ls with - | ⟨l1, ls'⟩
        · rw [joinLines]
          have : joinLines [l0] = cs := hsp ▸ ih
          rw [joinLines] at this
          rw [this]
        · rw [joinLines]
          have : joinLines (l0 :: l1 :: ls') = cs := hsp ▸ ih
          rw [joinLines] at this
          rw [List.cons_append, this]

/-- Mapping a function that fixes every member fixes the list. -/
theorem map_self_of_mem (f : List Char → List Char) (l : List (List Char))
    (h : ∀ x ∈ l, f x = x) : l.map f = l := by
  induction l with
  | nil => rfl
  | cons a as ih =>
    rw [List.map_cons, h a (List.mem_cons_self a as),
      ih (fun x hx => h x (List.mem_cons_of_mem a hx))]

/-- A marker whose first character does not occur in the line is not a
line prefix. -/
theorem isPrefixOf_false_of_head_nmem (c0 : Char) (rest l : List Char) (h : c0 ∉ l) :
    (c0 :: rest).isPrefixOf l = false := by
  cases l with
  | nil => rfl
  | cons a as =>
    have hne : ¬(c0 = a) := fun h' => h (h' ▸ List.mem_cons_self a as)
    simp [List.isPrefixOf, hne]

/-- A line the marker does not start keeps its text. -/
theorem hLine_id (marker o c l : List Char) (h : marker.isPrefixOf l = false) :
    hLine marker o c l = l := by
  simp [hLine, h]

/-- A per-line transform fixing every line fixes the text. -/
theorem lineMap_id (f : List Char → List Char) (cs : List Char)
    (h : ∀ l ∈ splitLines cs, f l = l) : lineMap f cs = cs := by
  unfold lineMap
  rw [map_self_of_mem f _ h, joinLines_splitLines]

/-- Without an asterisk in the input, the bold scan is the identity, for
every fuel. -/
theorem boldRunF_id (fuel : Nat) (cs : List Char) (h : '*' ∉ cs) :
    boldRunF fuel cs = cs := by
  induction fuel generalizing cs with
  | zero => rfl
  | succ fuel ih =>
    match cs with
    | [] => rfl
    | [c] => rfl
    | c :: c2 :: cs2 =>
      rw [boldRunF]
      have hc : ¬(c = '*' ∧ c2 = '*') := by
        rintro ⟨rfl, -⟩
        exact h (List.mem_cons_self _ _)
      rw [if_neg hc, ih (c2 :: cs2) (fun hm => h (List.mem_cons_of_mem c hm))]

/-- Without an asterisk in the input, the italic scan is the identity. -/
theorem italRunF_id (fuel : Nat) (cs : List Char) (h : '*' ∉ cs) :
    italRunF fuel cs = cs := by
  induction fuel generalizing cs with
  | zero => rfl
  | succ fuel ih =>
    match cs with
    | [] => rfl
    | c :: cs' =>
      rw [italRunF]
      have hc : ¬(c = '*') := by
        rintro rfl
        exact h (List.mem_cons_self _ _)
      rw [if_neg hc, ih cs' (fun hm => h (List.mem_cons_of_mem c hm))]

/-- A list-group match starts with an angle bracket. -/
theorem ulGroup_head (cs : List Char) (g rest : List Char) (h : ulGroup cs = some (g, rest)) :
    '<' ∈ cs := by
  unfold ulGroup at h
  split at h
  · exact List.mem_cons_self _ _
  · exact absurd h (by simp)

/-- Without an angle bracket, no list group matches. -/
theorem ulGroup_none (cs : List Char) (h : '<' ∉ cs) : ulGroup cs = none := by
  rcases hg : ulGroup cs with - | ⟨g, rest⟩
  · rfl
  · exact absurd (ulGroup_head cs g rest hg) h

/-- Without an angle bracket, the repeated list matcher fails. -/
theorem ulPlusF_none (fuel : Nat) (cs : List Char) (h : '<' ∉ cs) :
    ulPlusF fuel cs = none := by
  cases fuel with
  | zero => rfl
  | succ fuel =>
    rw [ulPlusF, ulGroup_none cs h]

/-- Without an angle bracket, the list-wrapping scan is the identity. -/
theorem ulRunF_id (fuel : Nat) (cs : List Char) (h : '<' ∉ cs) :
    ulRunF fuel cs = cs := by
  induction fuel generalizing cs with
  | zero => rfl
  | succ fuel ih =>
    match cs with
    | [] => rfl
    | c :: cs' =>
      rw [ulRunF, ulPlusF_none _ _ h, ih cs' (fun hm => h (List.mem_cons_of_mem c hm))]

/-- Without a newline, the paragraph-break substitution is the identity. -/
theorem paraRun_id (cs : List Char) (h : '\n' ∉ cs) : paraRun cs = cs := by
  induction cs with
  | nil => rfl
  | cons c cs ih =>
    have hc : ¬(c = '\n') := fun h' => h (h' ▸ List.mem_cons_self c cs)
    rw [paraRun.eq_def]
    simp only [if_neg hc]
    rw [ih (fun hm => h (List.mem_cons_of_mem c hm))]

/-- Without a newline, the line-break substitution is the identity. -/
theorem nlRun_id (cs : List Char) (h : '\n' ∉ cs) : nlRun cs = cs := by
  induction cs with
  | nil => rfl
  | cons c cs ih =>
    rw [nlRun]
    have hc : ¬(c = '\n') := fun h' => h (h' ▸ List.mem_cons_self c cs)
    rw [if_neg hc, ih (fun hm => h (List.mem_cons_of_mem c hm))]

/-- C5 amended: the substitution chain (exclusive of the synthesized-title
prepend) fixes content free of newlines, asterisks, hash marks, dashes and
angle brackets, and hence is idempotent on such content.  Full preview
rendering is NOT idempotent: each application prepends a fresh synthesized
title heading (see the accompanying counterexample). -/
theorem renderChain_inert_idempotent (st : PdfStyle) (cs : List Char)
    (h1 : '\n' ∉ cs) (h2 : '*' ∉ cs) (h3 : '#' ∉ cs) (h4 : '-' ∉ cs) (h5 : '<' ∉ cs) :
    renderChain st cs = cs ∧ renderChain st (renderChain st cs) = renderChain st cs := by
  have hid : renderChain st cs = cs := by
    unfold renderChain
    have hm3 : lineMap (hLine ("### ").data (h3Open st) ("</h3>").data) cs = cs := by
      refine lineMap_id _ _ (fun l hl => hLine_id _ _ _ _ ?_)
      exact isPrefixOf_false_of_head_nmem '#' _ l
        (fun hm => h3 (mem_of_mem_splitLines cs l hl '#' hm))
    have hm2 : lineMap (hLine ("## ").data (h2Open st) ("</h2>").data) cs = cs := by
      refine lineMap_id _ _ (fun l hl => hLine_id _ _ _ _ ?_)
      exact isPrefixOf_false_of_head_nmem '#' _ l
        (fun hm => h3 (mem_of_mem_splitLines cs l hl '#' hm))
    have hm1 : lineMap (hLine ("# ").data (h1Open st) ("</h1>").data) cs = cs := by
      refine lineMap_id _ _ (fun l hl => hLine_id _ _ _ _ ?_)
      exact isPrefixOf_false_of_head_nmem '#' _ l
        (fun hm => h3 (mem_of_mem_splitLines cs l hl '#' hm))
    have hmli : lineMap (hLine ("- ").data liOpen ("</li>").data) cs = cs := by
      refine lineMap_id _ _ (fun l hl => hLine_id _ _ _ _ ?_)
      exact isPrefixOf_false_of_head_nmem '-' _ l
        (fun hm => h4 (mem_of_mem_splitLines cs l hl '-' hm))
    rw [hm3, hm2, hm1]
    unfold boldRun
    rw [boldRunF_id _ cs h2]
    unfold italRun
    rw [italRunF_id _ cs h2]
    rw [hmli]
    unfold ulRun
    rw [ulRunF_id _ cs h5]
    rw [paraRun_id cs h1, nlRun_id cs h1]
  refine ⟨hid, ?_⟩
  rw [hid]
  exact hid

/-- Witness for `renderChain_inert_idempotent` at a concrete input. -/
theorem renderChain_inert_idempotent_witness :
    renderChain PdfStyle.academico ("hello world").data = ("hello world").data :=
  (renderChain_inert_idempotent PdfStyle.academico ("hello world").data (by decide) (by decide)
    (by decide) (by decide) (by decide)).1
